import Mathlib

/-!
Verification development for the wallet-creation command of
`helium-wallet-rust` (`src/cmd/create.rs`).

The command layer (`gen_keypair`, `open_output_file`, `Basic::run`,
`Sharded::run`) is embedded directly from the source, with the file system
as explicit state.  The cryptographic collaborators that the command calls
but whose sources are not part of the repository snapshot
(`Keypair::generate{_from_entropy}`, `mnemonic_to_entropy`,
`Wallet::encrypt/decrypt/shards`, the threshold secret splitter) are
modelled from the specification, as marked on each definition.
-/

namespace HeliumWallet

/-! ## Data model (spec §3, `create.rs` lines 1-76) -/

inductive Network
  | mainnet
  | testnet
deriving DecidableEq, Repr

inductive KeyType
  | ed25519
  | eccCompact
deriving DecidableEq, Repr

structure KeyTag where
  network : Network
  key_type : KeyType
deriving DecidableEq, Repr

/-- A keypair: tag plus fixed-length byte encodings of the keys (spec §3). -/
structure Keypair where
  tag : KeyTag
  public_key : List Nat
  private_key : List Nat
deriving DecidableEq, Repr

inductive SeedType
  | bip39
  | mobile
deriving DecidableEq, Repr

/-- Error taxonomy (spec §7).  `IoAlreadyExists` is the `Io` error kind raised
by `OpenOptions::create_new` on an existing path; `InvalidParams` is the
`bail!` in `gen_keypair` (`create.rs` line 155). -/
inductive Err
  | InvalidMnemonic
  | UnsupportedKeyType
  | KdfFailure
  | InvalidThreshold
  | InconsistentShares
  | InsufficientShares
  | WrongPassword
  | CorruptWallet
  | IoAlreadyExists
  | InvalidParams
deriving DecidableEq, Repr

deriving instance DecidableEq for Except

/-! ## Threshold secret splitter (spec §4.4)

Modelled from the spec: the `sss` splitter crate used by `Wallet::encrypt`
(`create.rs` line 128) is not part of the repository snapshot.  Following
§4.4, the secret is treated byte-wise as the constant coefficient of a
polynomial over a finite field; share `i` carries the evaluations at the
nonzero point `i`.  The field is `ZMod 257`, the smallest prime field in
which every byte value and every share index `1..255` embeds injectively. -/

/-- The finite field of the threshold scheme. -/
abbrev GF : Type := ZMod 257

instance : Fact (Nat.Prime 257) := ⟨by norm_num⟩

/-- Horner evaluation of a polynomial given by its coefficient list
(lowest degree first). -/
def evalPoly (coeffs : List GF) (x : GF) : GF :=
  coeffs.foldr (fun c acc => c + x * acc) 0

/-- Modelled from the spec (§3, §4.4): a share is tagged with its one-based
index and the scheme's threshold, and carries one field element per secret
byte. -/
structure Share where
  idx : Nat
  threshold : Nat
  ys : List GF
deriving DecidableEq, Repr, Inhabited

/-- The splitting polynomial for byte position `p`: the secret byte as
constant coefficient, followed by `k - 1` random coefficients `rand p t`. -/
def coeffsOf (secret : List Nat) (k : Nat) (rand : Nat → Nat → GF) (p : Nat) : List GF :=
  (secret.getD p 0 : GF) :: (List.range (k - 1)).map (rand p)

/-- The `i`-th (zero-based) share produced by splitting `secret` with
threshold `k`; `rand p t` is the `t`-th random polynomial coefficient for
byte position `p`. -/
def shareOf (secret : List Nat) (k : Nat) (rand : Nat → Nat → GF) (i : Nat) : Share :=
  { idx := i + 1
    threshold := k
    ys := (List.range secret.length).map fun p =>
      evalPoly (coeffsOf secret k rand p) ((i + 1 : Nat) : GF) }

/-- Modelled from the spec (§4.4): `split(secret, n, k)` fails with
`InvalidThreshold` if `k > n`, `k < 1`, or `n > 255`, and otherwise returns
`n` shares with indices `1..n`. -/
def split (secret : List Nat) (n k : Nat) (rand : Nat → Nat → GF) : Except Err (List Share) :=
  if k > n ∨ k < 1 ∨ n > 255 then .error .InvalidThreshold
  else .ok ((List.range n).map (shareOf secret k rand))

/-- The field point at which a share's polynomial values were taken. -/
def xOf (s : Share) : GF := (s.idx : GF)

/-- Lagrange reconstruction of secret byte `p` at the point `0` from the
given shares. -/
def combineAt (shares : List Share) (p : Nat) : GF :=
  ∑ i ∈ Finset.range shares.length,
    ((shares.getD i default).ys.getD p 0) *
      ∏ j ∈ (Finset.range shares.length).erase i,
        xOf (shares.getD j default) * (xOf (shares.getD j default) - xOf (shares.getD i default))⁻¹

/-- Modelled from the spec (§4.4): `combine(shares, k)` rejects a share set
that is too small (`InsufficientShares`) or whose indices are not distinct
or whose declared thresholds disagree (`InconsistentShares`), and otherwise
interpolates each byte of the secret. -/
def combine (shares : List Share) (k : Nat) : Except Err (List Nat) :=
  if shares.length < k then .error .InsufficientShares
  else if (shares.map Share.idx).Nodup ∧ ∀ s ∈ shares, s.threshold = k then
    .ok ((List.range (shares.headD default).ys.length).map fun p => (combineAt shares p).val)
  else .error .InconsistentShares

/-! ## Password KDF and wallet encoder (spec §4.3, §4.5)

Modelled from the spec: `PwHash`, `Wallet::encrypt`, `Wallet::decrypt` and
`Wallet::shards` live in `pwhash.rs` / `wallet.rs`, which are not part of
the repository snapshot; only their callers in `create.rs` are. -/

/-- KDF parameters (spec §3): salt plus cost parameters, persisted alongside
the ciphertext. -/
structure PwHash where
  salt : List Nat
  memoryCost : Nat
deriving DecidableEq, Repr

/-- Modelled from the spec: `PwHash::argon2id13_default()` is the fixed
default cost preset for new wallets; the salt is freshly generated per
wallet, modelled as an explicit input. -/
def argon2id13_default (salt : List Nat) : PwHash :=
  { salt := salt, memoryCost := 64 }

/-- Modelled from the spec (§4.3): `derive(password, params)` stretches the
password and salt into a symmetric key; it fails with `KdfFailure` only on
resource exhaustion, modelled by the available memory `budget`. -/
def kdfDerive (password : List Nat) (ph : PwHash) (budget : Nat) : Except Err (List Nat) :=
  if ph.memoryCost ≤ budget then .ok (password ++ ph.salt) else .error .KdfFailure

/-- Keystream byte `i` generated from a symmetric key. -/
def sByte (key : List Nat) (i : Nat) : Nat := key.getD (i % key.length) 0

/-- Stream cipher core of the AEAD: XOR the message with the keystream,
starting at keystream position `i`. -/
def xorS (key : List Nat) : Nat → List Nat → List Nat
  | _, [] => []
  | i, b :: rest => (b ^^^ sByte key i) :: xorS key (i + 1) rest

/-- Authentication tag of the AEAD over the plaintext. -/
def macTag (key msg : List Nat) : Nat :=
  (key ++ msg).foldl (fun a b => (a * 31 + b) % 65536) 7

/-- Modelled from the spec (§4.5): authenticated encryption; returns the
ciphertext and the authentication tag. -/
def aeadEncrypt (key msg : List Nat) : List Nat × Nat :=
  (xorS key 0 msg, macTag key msg)

/-- Modelled from the spec (§4.5): authenticated decryption; `none` when
the tag does not verify (wrong key or tampering). -/
def aeadDecrypt (key ct : List Nat) (tg : Nat) : Option (List Nat) :=
  let msg := xorS key 0 ct
  if macTag key msg = tg then some msg else none

/-- The on-wire byte for a key tag, network nibble plus key type
(ed25519 = 1, ecc_compact = 0, testnet = 0x10). -/
def tagByte : KeyTag → Nat
  | ⟨.mainnet, .eccCompact⟩ => 0
  | ⟨.mainnet, .ed25519⟩ => 1
  | ⟨.testnet, .eccCompact⟩ => 16
  | ⟨.testnet, .ed25519⟩ => 17

def tagOfByte (b : Nat) : Option KeyTag :=
  if b = 0 then some ⟨.mainnet, .eccCompact⟩
  else if b = 1 then some ⟨.mainnet, .ed25519⟩
  else if b = 16 then some ⟨.testnet, .eccCompact⟩
  else if b = 17 then some ⟨.testnet, .ed25519⟩
  else none

/-- Modelled from the spec (§4.5): the canonical byte form of a keypair —
tag byte, public key length, public key, private key. -/
def serializeKeypair (kp : Keypair) : List Nat :=
  tagByte kp.tag :: kp.public_key.length :: (kp.public_key ++ kp.private_key)

def deserializeKeypair (bs : List Nat) : Option Keypair :=
  match bs with
  | t :: plen :: rest =>
    match tagOfByte t with
    | some tag => some ⟨tag, rest.take plen, rest.drop plen⟩
    | none => none
  | _ => none

/-- The `format::Basic` / `format::Sharded` argument of `Wallet::encrypt`
(`create.rs` lines 99-101, 122-127). -/
inductive Format
  | basic (pwhash : PwHash)
  | sharded (key_share_count recovery_threshold : Nat) (pwhash : PwHash)
deriving DecidableEq, Repr

/-- On-disk wallet (spec §3): Basic holds KDF parameters and the AEAD
ciphertext; Sharded additionally holds `n`, `k` and the key shares. -/
inductive Wallet
  | basic (pwhash : PwHash) (ct : List Nat) (tg : Nat)
  | sharded (n k : Nat) (pwhash : PwHash) (ct : List Nat) (tg : Nat) (shares : List Share)
deriving DecidableEq, Repr

instance : Inhabited Wallet := ⟨.basic ⟨[], 0⟩ [] 0⟩

/-- Modelled from the spec (§4.5): `Wallet::encrypt(keypair, password,
format)` serializes the keypair, derives a key via the KDF, authenticated-
encrypts, and for the Sharded variant splits the derived symmetric key
(the single-shared-password model of §4.5/§9). -/
def walletEncrypt (kp : Keypair) (password : List Nat) (fmt : Format)
    (rand : Nat → Nat → GF) (budget : Nat) : Except Err Wallet :=
  match fmt with
  | .basic ph =>
    match kdfDerive password ph budget with
    | .error e => .error e
    | .ok key =>
      .ok (.basic ph (aeadEncrypt key (serializeKeypair kp)).1
        (aeadEncrypt key (serializeKeypair kp)).2)
  | .sharded n k ph =>
    match kdfDerive password ph budget with
    | .error e => .error e
    | .ok key =>
      match split key n k rand with
      | .error e => .error e
      | .ok shares =>
        .ok (.sharded n k ph (aeadEncrypt key (serializeKeypair kp)).1
          (aeadEncrypt key (serializeKeypair kp)).2 shares)

/-- Modelled from the spec (§4.5): `Wallet::decrypt(wallet, password)`
reverses the process; a Sharded wallet first combines its (supplied)
shares back into the symmetric key. -/
def walletDecrypt (w : Wallet) (password : List Nat) (budget : Nat) : Except Err Keypair :=
  match w with
  | .basic ph ct tg =>
    match kdfDerive password ph budget with
    | .error e => .error e
    | .ok key =>
      match aeadDecrypt key ct tg with
      | some msg =>
        match deserializeKeypair msg with
        | some kp => .ok kp
        | none => .error .CorruptWallet
      | none => .error .WrongPassword
  | .sharded _ k _ ct tg shares =>
    match combine shares k with
    | .error e => .error e
    | .ok key =>
      match aeadDecrypt key ct tg with
      | some msg =>
        match deserializeKeypair msg with
        | some kp => .ok kp
        | none => .error .CorruptWallet
      | none => .error .WrongPassword

/-- Modelled from the spec (§6): `wallet.shards()` (`create.rs` line 131)
yields one self-describing artifact per share, each carrying the format
tag, `n`, `k`, the KDF parameters and the encrypted payload. -/
def walletShards : Wallet → Except Err (List Wallet)
  | .basic _ _ _ => .error .CorruptWallet
  | .sharded n k ph ct tg shares => .ok (shares.map fun s => .sharded n k ph ct tg [s])

/-- Serialized form of one share inside a wallet artifact. -/
def serShare (s : Share) : List Nat :=
  s.idx :: s.threshold :: s.ys.length :: s.ys.map ZMod.val

/-- The bytes `wallet.write` / `shard.write` produce (`create.rs` lines
104, 136): a self-describing blob with a format tag. -/
def serWallet : Wallet → List Nat
  | .basic ph ct tg =>
    1 :: ph.memoryCost :: ph.salt.length :: (ph.salt ++ ct) ++ [tg]
  | .sharded n k ph ct tg shares =>
    2 :: n :: k :: ph.memoryCost :: ph.salt.length :: (ph.salt ++ ct)
      ++ tg :: shares.length :: (shares.map serShare).flatten

/-! ## Keypair generation (spec §4.1, §4.2; `create.rs` lines 142-157) -/

/-- Deterministic public key derived from a private key (the curve
arithmetic is delegated per §4.2; any fixed function models it). -/
def pubDerive (tag : KeyTag) (sk : List Nat) : List Nat :=
  sk.map fun b => (b * 3 + tagByte tag) % 256

/-- Modelled from the spec (§4.2): `Keypair::generate_from_entropy(tag,
entropy)` derives a keypair deterministically from the entropy; both
supported key types have a deterministic-derivation path. -/
def generate_from_entropy (tag : KeyTag) (entropy : List Nat) : Except Err Keypair :=
  let sk := entropy.map (· % 256)
  .ok ⟨tag, pubDerive tag sk, sk⟩

/-- Modelled from the spec (§4.2): `Keypair::generate(tag)` draws fresh
randomness internally; the consumed RNG bytes are an explicit input. -/
def keypairGenerate (tag : KeyTag) (rng : List Nat) : Keypair :=
  let sk := rng.map (· % 256)
  ⟨tag, pubDerive tag sk, sk⟩

/-- Modelled from the spec (§4.1): `mnemonic_to_entropy(words, seed_type)`
decodes a word list (given as wordlist indices) under one of two grammars
and fails with `InvalidMnemonic` on a bad word count; the two grammars
decode differently. -/
def mnemonic_to_entropy (words : List Nat) (st : SeedType) : Except Err (List Nat) :=
  if words.length = 12 ∨ words.length = 24 then
    .ok (words.map fun w => (w + (match st with | .bip39 => 0 | .mobile => 1)) % 256)
  else .error .InvalidMnemonic

/-- Embeds `gen_keypair` (`create.rs` lines 142-157): both of `seed_words`
and `seed_type` must be `Some`, or both `None`; anything else is an
error. -/
def gen_keypair (tag : KeyTag) (seed_words : Option (List Nat))
    (seed_type : Option SeedType) (rng : List Nat) : Except Err Keypair :=
  match seed_words, seed_type with
  | some words, some st =>
    match mnemonic_to_entropy words st with
    | .error e => .error e
    | .ok entropy => generate_from_entropy tag entropy
  | none, none => .ok (keypairGenerate tag rng)
  | _, _ => .error .InvalidParams

/-! ## File system model and path handling -/

/-- A path, as a byte string (no directory components are needed: the
command treats the output path as one file name). -/
abbrev FilePath' : Type := List Nat

/-- The file system: an association list from paths to file contents. -/
abbrev FS : Type := List (FilePath' × List Nat)

def lookupFile : FS → FilePath' → Option (List Nat)
  | [], _ => none
  | (q, c) :: rest, p => if q = p then some c else lookupFile rest p

def setFile : FS → FilePath' → List Nat → FS
  | [], p, c => [(p, c)]
  | (q, d) :: rest, p, c => if q = p then (p, c) :: rest else (q, d) :: setFile rest p c

/-- Embeds `open_output_file` (`create.rs` lines 159-165):
`OpenOptions::new().write(true).create(true).create_new(create)`.
With `create_new` set, an existing path is an `Io` error; otherwise an
existing file is opened as is — note there is no `truncate`. -/
def open_output_file (fs : FS) (filename : FilePath') (create : Bool) : Except Err FS :=
  match lookupFile fs filename with
  | some _ => if create then .error .IoAlreadyExists else .ok fs
  | none => .ok (setFile fs filename [])

/-- Writing all serialized bytes through a file handle freshly opened by
`open_output_file`: the bytes land at position 0; any prior bytes past
the written length remain (the open does not truncate). -/
def writeAll (fs : FS) (p : FilePath') (bytes : List Nat) : FS :=
  setFile fs p (bytes ++ ((lookupFile fs p).getD []).drop bytes.length)

/-- Positions of the `.` (byte 46) characters in a file name. -/
def dotPositions (name : FilePath') : List Nat :=
  (List.range name.length).filter fun i => name.getD i 0 = 46

/-- Position of the dot starting the extension, per Rust
`Path::extension`: `none` when there is no dot, or when the only dot
leads a hidden-file name. -/
def extSplit (name : FilePath') : Option Nat :=
  let dp := dotPositions name
  if dp = [] ∨ dp = [0] then none else dp.getLast?

/-- Rust `Path::file_stem`: the name up to the extension dot. -/
def fileStem (name : FilePath') : FilePath' :=
  match extSplit name with
  | none => name
  | some i => name.take i

/-- Rust `Path::extension`: the portion after the extension dot. -/
def extensionOf (name : FilePath') : Option FilePath' :=
  (extSplit name).map fun i => name.drop (i + 1)

/-- Modelled from the spec (§6, §9): `get_file_extension` (`create.rs`
line 130, defined in the `cmd` module, not in the snapshot) returns the
output path's extension, or the empty string when there is none. -/
def get_file_extension (p : FilePath') : FilePath' := (extensionOf p).getD []

/-- Rust `PathBuf::set_extension`: drop the current extension and append
a dot plus the new one (nothing when the new extension is empty). -/
def set_extension (name : FilePath') (ext : FilePath') : FilePath' :=
  fileStem name ++ (if ext = [] then [] else 46 :: ext)

/-- Little-endian decimal digits of `n`, with explicit fuel (first
argument) so that the recursion is structural. -/
def digitsAux : Nat → Nat → List Nat
  | 0, _ => []
  | _ + 1, 0 => []
  | fuel + 1, n + 1 => ((n + 1) % 10) :: digitsAux fuel ((n + 1) / 10)

/-- The bytes of `(i + 1).to_string()` (`create.rs` line 133). -/
def natBytes (n : Nat) : List Nat :=
  ((digitsAux n n).reverse).map (· + 48)

/-- The path for the shard with one-based number `m` (`create.rs` lines
133-134): `filename.set_extension(format!("{}.{}", extension, m))`. -/
def shardPath (output extension : FilePath') (m : Nat) : FilePath' :=
  set_extension output (extension ++ 46 :: natBytes m)

/-- The file name the `i`-th (zero-based) shard is written to
(`create.rs` lines 130-134): the output path with its extension set to
the original extension plus `"." ++ (i+1)`. -/
def shardFilename (output : FilePath') (i : Nat) : FilePath' :=
  shardPath output (get_file_extension output) (i + 1)

/-! ## The command flows (`create.rs` lines 87-140) -/

/-- Result of a run: the propagated `Result`, the final file system, and
any warning messages the command printed (the source prints none). -/
structure RunOut where
  res : Except Err Unit
  fs : FS
  warnings : List (List Nat)
deriving DecidableEq, Repr

structure BasicCmd where
  output : FilePath'
  force : Bool
  seed : Option SeedType
  network : Network
  key_type : KeyType
deriving DecidableEq, Repr

structure ShardedCmd where
  output : FilePath'
  force : Bool
  key_share_count : Nat
  recovery_threshold : Nat
  seed : Option SeedType
  network : Network
  key_type : KeyType
deriving DecidableEq, Repr

/-- The seed-words step (`create.rs` lines 89-92, 111-114); `gsw` models
the interactive `get_seed_words`. -/
def seedWordsStep (seed : Option SeedType)
    (gsw : SeedType → Except Err (List Nat)) : Except Err (Option (List Nat)) :=
  match seed with
  | some st => (gsw st).map some
  | none => .ok none

/-- Embeds `Basic::run` (`create.rs` lines 87-106), with the interactive inputs
(`gsw`, `password`), the RNG draws (`rng`, `salt`, `rand`) and the KDF
memory budget as explicit inputs, acting on the file system `fs`. -/
def basicRun (cmd : BasicCmd) (gsw : SeedType → Except Err (List Nat))
    (password rng salt : List Nat) (rand : Nat → Nat → GF) (budget : Nat)
    (fs : FS) : RunOut :=
  match seedWordsStep cmd.seed gsw with
  | .error e => ⟨.error e, fs, []⟩
  | .ok seed_words =>
    match gen_keypair ⟨cmd.network, cmd.key_type⟩ seed_words cmd.seed rng with
    | .error e => ⟨.error e, fs, []⟩
    | .ok keypair =>
      match walletEncrypt keypair password (.basic (argon2id13_default salt)) rand budget with
      | .error e => ⟨.error e, fs, []⟩
      | .ok wallet =>
        match open_output_file fs cmd.output (!cmd.force) with
        | .error e => ⟨.error e, fs, []⟩
        | .ok fs1 => ⟨.ok (), writeAll fs1 cmd.output (serWallet wallet), []⟩

/-- The shard-writing loop of `Sharded::run` (`create.rs` lines 131-137):
`for (i, shard) in wallet.shards()?.iter().enumerate()`, open and write
each shard file in turn; an open or write failure propagates at once. -/
def writeShards (output : FilePath') (extension : FilePath') (force : Bool) :
    List (List Nat) → Nat → FS → RunOut
  | [], _, fs => ⟨.ok (), fs, []⟩
  | sh :: rest, i, fs =>
    match open_output_file fs (shardPath output extension (i + 1)) (!force) with
    | .error e => ⟨.error e, fs, []⟩
    | .ok fs1 =>
      writeShards output extension force rest (i + 1)
        (writeAll fs1 (shardPath output extension (i + 1)) sh)

/-- Embeds `Sharded::run` (`create.rs` lines 109-140). -/
def shardedRun (cmd : ShardedCmd) (gsw : SeedType → Except Err (List Nat))
    (password rng salt : List Nat) (rand : Nat → Nat → GF) (budget : Nat)
    (fs : FS) : RunOut :=
  match seedWordsStep cmd.seed gsw with
  | .error e => ⟨.error e, fs, []⟩
  | .ok seed_words =>
    match gen_keypair ⟨cmd.network, cmd.key_type⟩ seed_words cmd.seed rng with
    | .error e => ⟨.error e, fs, []⟩
    | .ok keypair =>
      match walletEncrypt keypair password
          (.sharded cmd.key_share_count cmd.recovery_threshold (argon2id13_default salt))
          rand budget with
      | .error e => ⟨.error e, fs, []⟩
      | .ok wallet =>
        match walletShards wallet with
        | .error e => ⟨.error e, fs, []⟩
        | .ok shards =>
          writeShards cmd.output (get_file_extension cmd.output) cmd.force
            (shards.map serWallet) 0 fs

/-- Helper for writing concrete paths in examples. -/
def pathOfString (s : String) : FilePath' := s.data.map Char.toNat

/-! ## Helper lemmas -/

theorem xorS_xorS (key : List Nat) (i : Nat) (msg : List Nat) :
    xorS key i (xorS key i msg) = msg := by
  induction msg generalizing i with
  | nil => rfl
  | cons b rest ih => simp [xorS, Nat.xor_cancel_right, ih]

theorem tagOfByte_tagByte (tag : KeyTag) : tagOfByte (tagByte tag) = some tag := by
  obtain ⟨nw, kt⟩ := tag
  cases nw <;> cases kt <;> rfl

theorem deserialize_serialize (kp : Keypair) :
    deserializeKeypair (serializeKeypair kp) = some kp := by
  obtain ⟨tag, pk, sk⟩ := kp
  simp [serializeKeypair, deserializeKeypair, tagOfByte_tagByte,
    List.take_left, List.drop_left]

/-! ## Claims -/

/-- C4: `split(secret, n, k)` fails with `InvalidThreshold` exactly when
`k > n`, `k < 1`, or `n > 255`; inside those bounds it never fails with
`InvalidThreshold`. -/
theorem split_invalidThreshold_iff (secret : List Nat) (n k : Nat) (rand : Nat → Nat → GF) :
    split secret n k rand = .error .InvalidThreshold ↔ (k > n ∨ k < 1 ∨ n > 255) := by
  unfold split
  split_ifs with h
  · exact iff_of_true rfl h
  · exact iff_of_false (by simp) h

/-- C10: `gen_keypair(tag, seed_words, seed_type)` fails when exactly one
of `seed_words` and `seed_type` is provided; it derives the keypair from
the mnemonic when both are provided, and generates a fresh random keypair
when both are absent. -/
theorem gen_keypair_branching (tag : KeyTag) (rng : List Nat) :
    (∀ w, gen_keypair tag (some w) none rng = .error .InvalidParams) ∧
    (∀ st, gen_keypair tag none (some st) rng = .error .InvalidParams) ∧
    (∀ w st, gen_keypair tag (some w) (some st) rng =
      (mnemonic_to_entropy w st).bind (generate_from_entropy tag)) ∧
    gen_keypair tag none none rng = .ok (keypairGenerate tag rng) :=
  ⟨fun _ => rfl, fun _ => rfl,
    fun w st => by cases hm : mnemonic_to_entropy w st <;> simp [gen_keypair, hm, Except.bind],
    rfl⟩

/-- C3: `generate_from_entropy` is deterministic — two results obtained
from the same `(tag, entropy)` have identical public and private key
bytes. -/
theorem generate_from_entropy_deterministic (tag : KeyTag) (entropy : List Nat)
    (kp1 kp2 : Keypair)
    (h1 : generate_from_entropy tag entropy = .ok kp1)
    (h2 : generate_from_entropy tag entropy = .ok kp2) :
    kp1.public_key = kp2.public_key ∧ kp1.private_key = kp2.private_key := by
  have h := Except.ok.inj (h1.symm.trans h2)
  subst h
  exact ⟨rfl, rfl⟩

theorem generate_from_entropy_deterministic_witness :
    (⟨⟨.mainnet, .ed25519⟩, [16], [5]⟩ : Keypair).public_key =
        (⟨⟨.mainnet, .ed25519⟩, [16], [5]⟩ : Keypair).public_key ∧
      (⟨⟨.mainnet, .ed25519⟩, [16], [5]⟩ : Keypair).private_key =
        (⟨⟨.mainnet, .ed25519⟩, [16], [5]⟩ : Keypair).private_key :=
  generate_from_entropy_deterministic ⟨.mainnet, .ed25519⟩ [5] _ _ (by decide) (by decide)

/-- C2: decrypting a Basic-format encryption with the same password
returns the original keypair, for every key type, network and keypair. -/
theorem basic_encrypt_decrypt_roundtrip (kp : Keypair) (password : List Nat)
    (ph : PwHash) (rand : Nat → Nat → GF) (budget : Nat) (w : Wallet)
    (henc : walletEncrypt kp password (.basic ph) rand budget = .ok w) :
    walletDecrypt w password budget = .ok kp := by
  by_cases hb : ph.memoryCost ≤ budget
  · simp [walletEncrypt, kdfDerive, hb, aeadEncrypt] at henc
    subst henc
    simp [walletDecrypt, kdfDerive, hb, aeadDecrypt, xorS_xorS, deserialize_serialize]
  · simp [walletEncrypt, kdfDerive, hb] at henc

theorem basic_encrypt_decrypt_roundtrip_witness :
    walletDecrypt
        ((walletEncrypt ⟨⟨.testnet, .eccCompact⟩, [10, 20], [30]⟩ [3]
            (.basic ⟨[1, 2], 64⟩) (fun _ _ => 0) 64).toOption.getD default)
        [3] 64 =
      .ok ⟨⟨.testnet, .eccCompact⟩, [10, 20], [30]⟩ :=
  basic_encrypt_decrypt_roundtrip ⟨⟨.testnet, .eccCompact⟩, [10, 20], [30]⟩ [3]
    ⟨[1, 2], 64⟩ (fun _ _ => 0) 64 _ (by decide)

theorem lookupFile_setFile_self (fs : FS) (p : FilePath') (c : List Nat) :
    lookupFile (setFile fs p c) p = some c := by
  induction fs with
  | nil => simp [setFile, lookupFile]
  | cons e rest ih =>
    obtain ⟨q, d⟩ := e
    by_cases h : q = p <;> simp [setFile, lookupFile, h, ih]

theorem lookupFile_setFile_ne (fs : FS) (p : FilePath') (c : List Nat) (q : FilePath')
    (h : q ≠ p) : lookupFile (setFile fs p c) q = lookupFile fs q := by
  induction fs with
  | nil => simp [setFile, lookupFile, Ne.symm h]
  | cons e rest ih =>
    obtain ⟨r, d⟩ := e
    by_cases hr : r = p
    · subst hr
      simp [setFile, lookupFile, h, Ne.symm h]
    · simp only [setFile, if_neg hr, lookupFile]
      by_cases hq : r = q <;> simp [hq, ih]

theorem lookupFile_writeAll_self (fs : FS) (p : FilePath') (bytes : List Nat) :
    lookupFile (writeAll fs p bytes) p =
      some (bytes ++ ((lookupFile fs p).getD []).drop bytes.length) :=
  lookupFile_setFile_self ..

theorem lookupFile_writeAll_ne (fs : FS) (p : FilePath') (bytes : List Nat)
    (q : FilePath') (h : q ≠ p) : lookupFile (writeAll fs p bytes) q = lookupFile fs q :=
  lookupFile_setFile_ne _ _ _ _ h

theorem open_output_file_absent (fs : FS) (p : FilePath') (b : Bool)
    (h : lookupFile fs p = none) :
    open_output_file fs p b = .ok (setFile fs p []) := by
  simp [open_output_file, h]

theorem open_output_file_existing (fs : FS) (p : FilePath') (c : List Nat)
    (h : lookupFile fs p = some c) :
    open_output_file fs p true = .error .IoAlreadyExists ∧
      open_output_file fs p false = .ok fs := by
  simp [open_output_file, h]

/-- A successful `open_output_file` never removes a file and never touches
any path other than the one it opens. -/
theorem open_output_file_lookup_ne (fs : FS) (p : FilePath') (b : Bool) (fs' : FS)
    (hok : open_output_file fs p b = .ok fs') (q : FilePath') (hq : q ≠ p) :
    lookupFile fs' q = lookupFile fs q := by
  unfold open_output_file at hok
  cases hl : lookupFile fs p with
  | some c =>
    rw [hl] at hok
    cases b with
    | false =>
      simp at hok
      subst hok; rfl
    | true => simp at hok
  | none =>
    rw [hl] at hok
    simp at hok
    subst hok
    exact lookupFile_setFile_ne _ _ _ _ hq

theorem open_output_file_isSome (fs : FS) (p : FilePath') (b : Bool) (fs' : FS)
    (hok : open_output_file fs p b = .ok fs') (q : FilePath')
    (hq : (lookupFile fs q).isSome) : (lookupFile fs' q).isSome := by
  by_cases h : q = p
  · subst h
    unfold open_output_file at hok
    cases hl : lookupFile fs q with
    | some c =>
      rw [hl] at hok
      cases b with
      | false => simp at hok; subst hok; simp [hl]
      | true => simp at hok
    | none =>
      rw [hl] at hok
      simp at hok
      subst hok
      simp [lookupFile_setFile_self]
  · rw [open_output_file_lookup_ne fs p b fs' hok q h]
    exact hq

theorem writeAll_isSome (fs : FS) (p : FilePath') (bytes : List Nat) (q : FilePath')
    (hq : (lookupFile fs q).isSome) : (lookupFile (writeAll fs p bytes) q).isSome := by
  by_cases h : q = p
  · subst h
    simp [lookupFile_writeAll_self]
  · rw [lookupFile_writeAll_ne _ _ _ _ h]
    exact hq

/-- C7: with the force flag off (`create = true`), opening an output path
that already exists fails with the `Io` error `AlreadyExists` and the
creation flow leaves the file system — in particular the existing file's
contents — unchanged; with the force flag on (`create = false`), an
existing file does not make the open fail. -/
theorem open_output_file_force_policy (fs : FS) (p : FilePath') (c : List Nat)
    (gsw : SeedType → Except Err (List Nat)) (password rng salt : List Nat)
    (rand : Nat → Nat → GF) (budget : Nat) (nw : Network) (kt : KeyType)
    (hex : lookupFile fs p = some c) (hbudget : 64 ≤ budget) :
    open_output_file fs p true = .error .IoAlreadyExists ∧
    open_output_file fs p false = .ok fs ∧
    basicRun ⟨p, false, none, nw, kt⟩ gsw password rng salt rand budget fs =
      ⟨.error .IoAlreadyExists, fs, []⟩ := by
  refine ⟨(open_output_file_existing fs p c hex).1, (open_output_file_existing fs p c hex).2, ?_⟩
  simp [basicRun, seedWordsStep, gen_keypair, walletEncrypt, kdfDerive,
    argon2id13_default, hbudget, open_output_file, hex]

theorem open_output_file_force_policy_witness :
    open_output_file [(pathOfString "wallet.key", [5])] (pathOfString "wallet.key") true =
        .error .IoAlreadyExists ∧
    open_output_file [(pathOfString "wallet.key", [5])] (pathOfString "wallet.key") false =
        .ok [(pathOfString "wallet.key", [5])] ∧
    basicRun ⟨pathOfString "wallet.key", false, none, .mainnet, .ed25519⟩
        (fun _ => .error .InvalidMnemonic) [] [1] [] (fun _ _ => 0) 64
        [(pathOfString "wallet.key", [5])] =
      ⟨.error .IoAlreadyExists, [(pathOfString "wallet.key", [5])], []⟩ :=
  open_output_file_force_policy [(pathOfString "wallet.key", [5])] (pathOfString "wallet.key")
    [5] (fun _ => .error .InvalidMnemonic) [] [1] [] (fun _ _ => 0) 64 .mainnet .ed25519
    (by decide) (by decide)

/-- C6: in both creation flows, if `Wallet::encrypt` fails, the run stops
with that error and the file system is untouched — no output file is
opened or written before encryption has succeeded. -/
theorem encrypt_fail_no_output (bc : BasicCmd) (sc : ShardedCmd)
    (gsw : SeedType → Except Err (List Nat)) (password rng salt : List Nat)
    (rand : Nat → Nat → GF) (budget : Nat) (fs : FS)
    (swB swS : Option (List Nat)) (kpB kpS : Keypair) (e e' : Err) :
    (seedWordsStep bc.seed gsw = .ok swB →
      gen_keypair ⟨bc.network, bc.key_type⟩ swB bc.seed rng = .ok kpB →
      walletEncrypt kpB password (.basic (argon2id13_default salt)) rand budget = .error e →
      basicRun bc gsw password rng salt rand budget fs = ⟨.error e, fs, []⟩) ∧
    (seedWordsStep sc.seed gsw = .ok swS →
      gen_keypair ⟨sc.network, sc.key_type⟩ swS sc.seed rng = .ok kpS →
      walletEncrypt kpS password
          (.sharded sc.key_share_count sc.recovery_threshold (argon2id13_default salt))
          rand budget = .error e' →
      shardedRun sc gsw password rng salt rand budget fs = ⟨.error e', fs, []⟩) := by
  constructor
  · intro h1 h2 h3
    simp [basicRun, h1, h2, h3]
  · intro h1 h2 h3
    simp [shardedRun, h1, h2, h3]

theorem encrypt_fail_no_output_witness :
    basicRun ⟨pathOfString "wallet.key", false, none, .mainnet, .ed25519⟩
        (fun _ => .error .InvalidMnemonic) [] [1] [] (fun _ _ => 0) 0 [] =
      ⟨.error .KdfFailure, [], []⟩ ∧
    shardedRun ⟨pathOfString "wallet.key", false, 5, 3, none, .mainnet, .ed25519⟩
        (fun _ => .error .InvalidMnemonic) [] [1] [] (fun _ _ => 0) 0 [] =
      ⟨.error .KdfFailure, [], []⟩ :=
  ⟨(encrypt_fail_no_output ⟨pathOfString "wallet.key", false, none, .mainnet, .ed25519⟩
      ⟨pathOfString "wallet.key", false, 5, 3, none, .mainnet, .ed25519⟩
      (fun _ => .error .InvalidMnemonic) [] [1] [] (fun _ _ => 0) 0 []
      none none (keypairGenerate ⟨.mainnet, .ed25519⟩ [1])
      (keypairGenerate ⟨.mainnet, .ed25519⟩ [1]) .KdfFailure .KdfFailure).1
      (by decide) (by decide) (by decide),
    (encrypt_fail_no_output ⟨pathOfString "wallet.key", false, none, .mainnet, .ed25519⟩
      ⟨pathOfString "wallet.key", false, 5, 3, none, .mainnet, .ed25519⟩
      (fun _ => .error .InvalidMnemonic) [] [1] [] (fun _ _ => 0) 0 []
      none none (keypairGenerate ⟨.mainnet, .ed25519⟩ [1])
      (keypairGenerate ⟨.mainnet, .ed25519⟩ [1]) .KdfFailure .KdfFailure).2
      (by decide) (by decide) (by decide)⟩

theorem writeShards_warnings (output extension : FilePath') (force : Bool) :
    ∀ (shards : List (List Nat)) (i : Nat) (fs : FS),
      (writeShards output extension force shards i fs).warnings = [] := by
  intro shards
  induction shards with
  | nil => intro i fs; rfl
  | cons sh rest ih =>
    intro i fs
    unfold writeShards
    split
    · rfl
    · exact ih _ _

theorem writeShards_isSome (output extension : FilePath') (force : Bool) :
    ∀ (shards : List (List Nat)) (i : Nat) (fs : FS) (p : FilePath'),
      (lookupFile fs p).isSome →
      (lookupFile (writeShards output extension force shards i fs).fs p).isSome := by
  intro shards
  induction shards with
  | nil => intro i fs p hp; exact hp
  | cons sh rest ih =>
    intro i fs p hp
    unfold writeShards
    split
    · exact hp
    · rename_i fs1 heq
      exact ih _ _ _ (writeAll_isSome _ _ _ _ (open_output_file_isSome _ _ _ _ heq _ hp))

/-- C5 counterexample: creating a sharded wallet (`n = 2`, `k = 1`) with
output `wallet.key` over a file system where `wallet.key.2` already
exists: the first shard file `wallet.key.1` is written, the second shard
then fails, and the flow neither removes `wallet.key.1` nor produces any
warning. -/
theorem sharded_interrupted_write_counterexample :
    (shardedRun ⟨pathOfString "wallet.key", false, 2, 1, none, .mainnet, .ed25519⟩
        (fun _ => .error .InvalidMnemonic) [] [1] [] (fun _ _ => 0) 64
        [(pathOfString "wallet.key.2", [9])]).res = .error .IoAlreadyExists ∧
    (shardedRun ⟨pathOfString "wallet.key", false, 2, 1, none, .mainnet, .ed25519⟩
        (fun _ => .error .InvalidMnemonic) [] [1] [] (fun _ _ => 0) 64
        [(pathOfString "wallet.key.2", [9])]).warnings = [] ∧
    (lookupFile (shardedRun ⟨pathOfString "wallet.key", false, 2, 1, none, .mainnet, .ed25519⟩
        (fun _ => .error .InvalidMnemonic) [] [1] [] (fun _ _ => 0) 64
        [(pathOfString "wallet.key.2", [9])]).fs
      (pathOfString "wallet.key.1")).isSome := by
  refine ⟨by decide, by decide, by decide⟩

/-- C5 amended: when a later shard write fails, the error propagates at
once; the flow never removes any file — every file present before or
written during the run is still present afterwards — and it produces no
warning. -/
theorem shardedRun_no_cleanup (cmd : ShardedCmd)
    (gsw : SeedType → Except Err (List Nat)) (password rng salt : List Nat)
    (rand : Nat → Nat → GF) (budget : Nat) (fs : FS) :
    (shardedRun cmd gsw password rng salt rand budget fs).warnings = [] ∧
    ∀ p, (lookupFile fs p).isSome →
      (lookupFile (shardedRun cmd gsw password rng salt rand budget fs).fs p).isSome := by
  unfold shardedRun
  split
  · exact ⟨rfl, fun p hp => hp⟩
  · split
    · exact ⟨rfl, fun p hp => hp⟩
    · split
      · exact ⟨rfl, fun p hp => hp⟩
      · split
        · exact ⟨rfl, fun p hp => hp⟩
        · exact ⟨writeShards_warnings _ _ _ _ _ _,
            fun p hp => writeShards_isSome _ _ _ _ _ _ _ hp⟩

theorem shardedRun_no_cleanup_witness :
    (shardedRun ⟨pathOfString "wallet.key", false, 2, 1, none, .mainnet, .ed25519⟩
        (fun _ => .error .InvalidMnemonic) [] [1] [] (fun _ _ => 0) 64
        [(pathOfString "wallet.key.2", [9])]).warnings = [] ∧
    (lookupFile (shardedRun ⟨pathOfString "wallet.key", false, 2, 1, none, .mainnet, .ed25519⟩
        (fun _ => .error .InvalidMnemonic) [] [1] [] (fun _ _ => 0) 64
        [(pathOfString "wallet.key.2", [9])]).fs (pathOfString "wallet.key.2")).isSome :=
  ⟨(shardedRun_no_cleanup ⟨pathOfString "wallet.key", false, 2, 1, none, .mainnet, .ed25519⟩
      (fun _ => .error .InvalidMnemonic) [] [1] [] (fun _ _ => 0) 64
      [(pathOfString "wallet.key.2", [9])]).1,
    (shardedRun_no_cleanup ⟨pathOfString "wallet.key", false, 2, 1, none, .mainnet, .ed25519⟩
      (fun _ => .error .InvalidMnemonic) [] [1] [] (fun _ _ => 0) 64
      [(pathOfString "wallet.key.2", [9])]).2 (pathOfString "wallet.key.2") (by decide)⟩

/-- C8 counterexample: a Basic creation with `--force` over an existing
60-byte file succeeds but leaves the file holding the serialized wallet
followed by the old file's tail bytes — not exactly the serialized wallet
bytes. -/
theorem force_reuse_leftover_counterexample :
    (basicRun ⟨pathOfString "wallet.key", true, none, .mainnet, .ed25519⟩
        (fun _ => .error .InvalidMnemonic) [] [1] [] (fun _ _ => 0) 64
        [(pathOfString "wallet.key", List.replicate 60 9)]).res = .ok () ∧
    lookupFile (basicRun ⟨pathOfString "wallet.key", true, none, .mainnet, .ed25519⟩
        (fun _ => .error .InvalidMnemonic) [] [1] [] (fun _ _ => 0) 64
        [(pathOfString "wallet.key", List.replicate 60 9)]).fs
      (pathOfString "wallet.key") ≠
    some (serWallet ((walletEncrypt (keypairGenerate ⟨.mainnet, .ed25519⟩ [1]) []
      (.basic (argon2id13_default [])) (fun _ _ => 0) 64).toOption.getD default)) := by
  refine ⟨by decide, by decide⟩

/-- Contents of the Basic flow's output file under the force flag: the
serialized wallet overwrites the file from position 0; old bytes beyond
the written length remain because the open does not truncate. -/
theorem basicRun_force_contents_aux (cmd : BasicCmd)
    (gsw : SeedType → Except Err (List Nat)) (password rng salt : List Nat)
    (rand : Nat → Nat → GF) (budget : Nat) (fs : FS) (w : Wallet)
    (hseed : cmd.seed = none) (hforce : cmd.force = true)
    (henc : walletEncrypt (keypairGenerate ⟨cmd.network, cmd.key_type⟩ rng) password
      (.basic (argon2id13_default salt)) rand budget = .ok w) :
    (basicRun cmd gsw password rng salt rand budget fs).res = .ok () ∧
    lookupFile (basicRun cmd gsw password rng salt rand budget fs).fs cmd.output =
      some (serWallet w ++ ((lookupFile fs cmd.output).getD []).drop (serWallet w).length) := by
  cases hl : lookupFile fs cmd.output with
  | some c =>
    simp [basicRun, hseed, hforce, seedWordsStep, gen_keypair, henc,
      open_output_file, hl, lookupFile_writeAll_self]
  | none =>
    simp [basicRun, hseed, hforce, seedWordsStep, gen_keypair, henc,
      open_output_file, hl, writeAll, lookupFile_setFile_self]

/-- Little-endian decimal value, left inverse of `digitsAux`. -/
def unDigits : List Nat → Nat
  | [] => 0
  | d :: ds => d + 10 * unDigits ds

theorem unDigits_digitsAux : ∀ fuel n : Nat, n ≤ fuel → unDigits (digitsAux fuel n) = n := by
  intro fuel
  induction fuel with
  | zero =>
    intro n h
    have hn : n = 0 := Nat.le_zero.mp h
    subst hn
    rfl
  | succ f ih =>
    intro n h
    match n with
    | 0 => rfl
    | m + 1 =>
      have hdiv : (m + 1) / 10 ≤ f := by
        have h1 : (m + 1) / 10 < m + 1 := Nat.div_lt_self (Nat.succ_pos m) (by norm_num)
        omega
      show ((m + 1) % 10) + 10 * unDigits (digitsAux f ((m + 1) / 10)) = m + 1
      rw [ih _ hdiv, Nat.mod_add_div]

theorem natBytes_injective (a b : Nat) (h : natBytes a = natBytes b) : a = b := by
  unfold natBytes at h
  have hinj : Function.Injective (fun d : Nat => d + 48) := fun x y hxy => by simpa using hxy
  have h2 := List.reverse_injective (List.map_injective_iff.mpr hinj h)
  calc a = unDigits (digitsAux a a) := (unDigits_digitsAux a a le_rfl).symm
    _ = unDigits (digitsAux b b) := by rw [h2]
    _ = b := unDigits_digitsAux b b le_rfl

theorem shardPath_inj (output extension : FilePath') {a b : Nat}
    (h : shardPath output extension a = shardPath output extension b) : a = b := by
  unfold shardPath set_extension at h
  have hne : ∀ m : Nat, ¬(extension ++ 46 :: natBytes m = ([] : List Nat)) := by
    intro m hm
    simp at hm
  rw [if_neg (hne a), if_neg (hne b)] at h
  have h2 := List.append_cancel_left h
  injection h2 with _ h3
  have h4 := List.append_cancel_left h3
  injection h4 with _ h5
  exact natBytes_injective a b h5

/-- The shard-writing loop on a file system initially free of the target
paths: it succeeds, writes the `j`-th shard's bytes to the path numbered
`i + j + 1`, and touches no other path. -/
theorem writeShards_fresh (output extension : FilePath') (force : Bool) :
    ∀ (shards : List (List Nat)) (i : Nat) (fs : FS),
      (∀ j, j < shards.length →
        lookupFile fs (shardPath output extension (i + j + 1)) = none) →
      (writeShards output extension force shards i fs).res = .ok () ∧
      (∀ j, j < shards.length →
        lookupFile (writeShards output extension force shards i fs).fs
          (shardPath output extension (i + j + 1)) = some (shards.getD j [])) ∧
      (∀ q, (∀ j, j < shards.length → q ≠ shardPath output extension (i + j + 1)) →
        lookupFile (writeShards output extension force shards i fs).fs q = lookupFile fs q) := by
  intro shards
  induction shards with
  | nil =>
    intro i fs _
    exact ⟨rfl, fun j hj => absurd hj (by simp), fun q _ => rfl⟩
  | cons sh rest ih =>
    intro i fs habs
    have h0 : lookupFile fs (shardPath output extension (i + 1)) = none := habs 0 (by simp)
    unfold writeShards
    split
    · rename_i e heq
      rw [open_output_file_absent fs _ (!force) h0] at heq
      simp at heq
    · rename_i fs1 heq
      rw [open_output_file_absent fs _ (!force) h0] at heq
      have hfs1 : fs1 = setFile fs (shardPath output extension (i + 1)) [] :=
        (Except.ok.inj heq).symm
      subst hfs1
      have habs' : ∀ j, j < rest.length →
          lookupFile (writeAll (setFile fs (shardPath output extension (i + 1)) [])
              (shardPath output extension (i + 1)) sh)
            (shardPath output extension (i + 1 + j + 1)) = none := by
        intro j hj
        have hne : shardPath output extension (i + 1 + j + 1) ≠
            shardPath output extension (i + 1) := fun hh => by
          have := shardPath_inj output extension hh
          omega
        rw [lookupFile_writeAll_ne _ _ _ _ hne, lookupFile_setFile_ne _ _ _ _ hne]
        rw [(by omega : i + 1 + j + 1 = i + (j + 1) + 1)]
        exact habs (j + 1) (by simpa using hj)
      obtain ⟨hres, hwritten, hother⟩ := ih (i + 1)
        (writeAll (setFile fs (shardPath output extension (i + 1)) [])
          (shardPath output extension (i + 1)) sh) habs'
      refine ⟨hres, ?_, ?_⟩
      · intro j hj
        cases j with
        | zero =>
          simp only [Nat.add_zero]
          have hne : ∀ j', j' < rest.length →
              shardPath output extension (i + 1) ≠
                shardPath output extension (i + 1 + j' + 1) := fun j' _ hh => by
            have := shardPath_inj output extension hh
            omega
          rw [hother _ hne, lookupFile_writeAll_self, lookupFile_setFile_self]
          simp
        | succ j' =>
          have hj' : j' < rest.length := by simpa using hj
          have hw := hwritten j' hj'
          rw [(by omega : i + (j' + 1) + 1 = i + 1 + j' + 1)]
          exact hw
      · intro q hq
        have hq' : ∀ j', j' < rest.length →
            q ≠ shardPath output extension (i + 1 + j' + 1) := by
          intro j' hj'
          have hh := hq (j' + 1) (by simpa using hj')
          rw [(by omega : i + (j' + 1) + 1 = i + 1 + j' + 1)] at hh
          exact hh
        rw [hother q hq']
        have hqne : q ≠ shardPath output extension (i + 1) := hq 0 (by simp)
        rw [lookupFile_writeAll_ne _ _ _ _ hqne, lookupFile_setFile_ne _ _ _ _ hqne]

theorem getD_map_serWallet : ∀ (l : List Wallet) (j : Nat), j < l.length →
    (l.map serWallet).getD j [] = serWallet (l.getD j default)
  | [], j, hj => absurd hj (by simp)
  | _ :: _, 0, _ => rfl
  | _ :: rest, j + 1, hj => getD_map_serWallet rest j (by simpa using hj)

/-- C9: in the Sharded flow, the `i`-th shard (zero-based) is written to
the output path with its extension replaced by the original extension
plus a dot plus the one-based share number `i + 1`. -/
theorem sharded_shard_filenames (cmd : ShardedCmd)
    (gsw : SeedType → Except Err (List Nat)) (password rng salt : List Nat)
    (rand : Nat → Nat → GF) (budget : Nat) (fs : FS) (w : Wallet) (shs : List Wallet)
    (hseed : cmd.seed = none)
    (henc : walletEncrypt (keypairGenerate ⟨cmd.network, cmd.key_type⟩ rng) password
      (.sharded cmd.key_share_count cmd.recovery_threshold (argon2id13_default salt))
      rand budget = .ok w)
    (hsh : walletShards w = .ok shs)
    (habs : ∀ i, i < shs.length → lookupFile fs (shardFilename cmd.output i) = none) :
    (shardedRun cmd gsw password rng salt rand budget fs).res = .ok () ∧
    ∀ i, i < shs.length →
      lookupFile (shardedRun cmd gsw password rng salt rand budget fs).fs
        (shardFilename cmd.output i) = some (serWallet (shs.getD i default)) := by
  have hrun : shardedRun cmd gsw password rng salt rand budget fs =
      writeShards cmd.output (get_file_extension cmd.output) cmd.force
        (shs.map serWallet) 0 fs := by
    simp [shardedRun, hseed, seedWordsStep, gen_keypair, henc, hsh]
  rw [hrun]
  have habs' : ∀ j, j < (shs.map serWallet).length →
      lookupFile fs (shardPath cmd.output (get_file_extension cmd.output) (0 + j + 1)) =
        none := by
    intro j hj
    rw [(by omega : 0 + j + 1 = j + 1)]
    exact habs j (by simpa using hj)
  obtain ⟨hres, hwritten, _⟩ := writeShards_fresh cmd.output (get_file_extension cmd.output)
    cmd.force (shs.map serWallet) 0 fs habs'
  refine ⟨hres, ?_⟩
  intro i hi
  have hw := hwritten i (by simpa using hi)
  rw [(by omega : 0 + i + 1 = i + 1)] at hw
  rw [getD_map_serWallet shs i hi] at hw
  exact hw

/-- The concrete sharded wallet of the filename witness. -/
def walletW9 : Wallet :=
  (walletEncrypt (keypairGenerate ⟨.mainnet, .ed25519⟩ [1]) []
    (.sharded 2 1 (argon2id13_default [])) (fun _ _ => 0) 64).toOption.getD default

/-- Its shard artifacts. -/
def shardsW9 : List Wallet := (walletShards walletW9).toOption.getD []

theorem sharded_shard_filenames_witness :
    shardFilename (pathOfString "wallet.key") 0 = pathOfString "wallet.key.1" ∧
    ((shardedRun ⟨pathOfString "wallet.key", false, 2, 1, none, .mainnet, .ed25519⟩
        (fun _ => .error .InvalidMnemonic) [] [1] [] (fun _ _ => 0) 64 []).res = .ok () ∧
      ∀ i, i < shardsW9.length →
        lookupFile (shardedRun ⟨pathOfString "wallet.key", false, 2, 1, none, .mainnet, .ed25519⟩
            (fun _ => .error .InvalidMnemonic) [] [1] [] (fun _ _ => 0) 64 []).fs
          (shardFilename (pathOfString "wallet.key") i) =
            some (serWallet (shardsW9.getD i default))) :=
  ⟨by decide,
    sharded_shard_filenames ⟨pathOfString "wallet.key", false, 2, 1, none, .mainnet, .ed25519⟩
      (fun _ => .error .InvalidMnemonic) [] [1] [] (fun _ _ => 0) 64 [] walletW9 shardsW9
      rfl (by decide) (by decide) (by decide)⟩

/-- The shard-writing loop with the force flag on: every open succeeds;
the `j`-th shard's bytes land at the path numbered `i + j + 1` from
position 0, with any pre-existing bytes of that file beyond the written
length remaining; no other path is touched. -/
theorem writeShards_force (output extension : FilePath') :
    ∀ (shards : List (List Nat)) (i : Nat) (fs : FS),
      (writeShards output extension true shards i fs).res = .ok () ∧
      (∀ j, j < shards.length →
        lookupFile (writeShards output extension true shards i fs).fs
          (shardPath output extension (i + j + 1)) =
        some (shards.getD j [] ++
          ((lookupFile fs (shardPath output extension (i + j + 1))).getD []).drop
            (shards.getD j []).length)) ∧
      (∀ q, (∀ j, j < shards.length → q ≠ shardPath output extension (i + j + 1)) →
        lookupFile (writeShards output extension true shards i fs).fs q = lookupFile fs q) := by
  intro shards
  induction shards with
  | nil =>
    intro i fs
    exact ⟨rfl, fun j hj => absurd hj (by simp), fun q _ => rfl⟩
  | cons sh rest ih =>
    intro i fs
    unfold writeShards
    split
    · rename_i e heq
      exfalso
      unfold open_output_file at heq
      cases hl : lookupFile fs (shardPath output extension (i + 1)) with
      | some c => rw [hl] at heq; simp at heq
      | none => rw [hl] at heq; simp at heq
    · rename_i fs1 heq
      unfold open_output_file at heq
      cases hl : lookupFile fs (shardPath output extension (i + 1)) with
      | some c =>
        rw [hl] at heq
        simp at heq
        subst heq
        obtain ⟨hres, hwr, hot⟩ := ih (i + 1)
          (writeAll fs (shardPath output extension (i + 1)) sh)
        refine ⟨hres, ?_, ?_⟩
        · intro j hj
          cases j with
          | zero =>
            simp only [Nat.add_zero]
            have hne : ∀ jj, jj < rest.length → shardPath output extension (i + 1) ≠
                shardPath output extension (i + 1 + jj + 1) := fun jj _ hh => by
              have hinj := shardPath_inj output extension hh
              omega
            rw [hot _ hne, lookupFile_writeAll_self, hl]
            rfl
          | succ j' =>
            have hj' : j' < rest.length := by simpa using hj
            have hw := hwr j' hj'
            have hne : shardPath output extension (i + 1 + j' + 1) ≠
                shardPath output extension (i + 1) := fun hh => by
              have hinj := shardPath_inj output extension hh
              omega
            rw [lookupFile_writeAll_ne _ _ _ _ hne] at hw
            rw [(by omega : i + (j' + 1) + 1 = i + 1 + j' + 1)]
            exact hw
        · intro q hq
          have hq' : ∀ jj, jj < rest.length →
              q ≠ shardPath output extension (i + 1 + jj + 1) := by
            intro jj hjj
            have hh := hq (jj + 1) (by simpa using hjj)
            rw [(by omega : i + (jj + 1) + 1 = i + 1 + jj + 1)] at hh
            exact hh
          rw [hot q hq']
          exact lookupFile_writeAll_ne _ _ _ _ (hq 0 (by simp))
      | none =>
        rw [hl] at heq
        simp at heq
        subst heq
        obtain ⟨hres, hwr, hot⟩ := ih (i + 1)
          (writeAll (setFile fs (shardPath output extension (i + 1)) [])
            (shardPath output extension (i + 1)) sh)
        refine ⟨hres, ?_, ?_⟩
        · intro j hj
          cases j with
          | zero =>
            simp only [Nat.add_zero]
            have hne : ∀ jj, jj < rest.length → shardPath output extension (i + 1) ≠
                shardPath output extension (i + 1 + jj + 1) := fun jj _ hh => by
              have hinj := shardPath_inj output extension hh
              omega
            rw [hot _ hne, lookupFile_writeAll_self, lookupFile_setFile_self, hl]
            simp
          | succ j' =>
            have hj' : j' < rest.length := by simpa using hj
            have hw := hwr j' hj'
            have hne : shardPath output extension (i + 1 + j' + 1) ≠
                shardPath output extension (i + 1) := fun hh => by
              have hinj := shardPath_inj output extension hh
              omega
            rw [lookupFile_writeAll_ne _ _ _ _ hne, lookupFile_setFile_ne _ _ _ _ hne] at hw
            rw [(by omega : i + (j' + 1) + 1 = i + 1 + j' + 1)]
            exact hw
        · intro q hq
          have hq' : ∀ jj, jj < rest.length →
              q ≠ shardPath output extension (i + 1 + jj + 1) := by
            intro jj hjj
            have hh := hq (jj + 1) (by simpa using hjj)
            rw [(by omega : i + (jj + 1) + 1 = i + 1 + jj + 1)] at hh
            exact hh
          rw [hot q hq']
          have hqne := hq 0 (by simp)
          rw [lookupFile_writeAll_ne _ _ _ _ hqne, lookupFile_setFile_ne _ _ _ _ hqne]

/-- C8 amended: each artifact — the Basic wallet file and every shard
file — is written from position 0 of its opened file, so a freshly
created file contains exactly the serialized bytes; but when the force
flag reuses an existing file the open performs no truncation, so the old
file's bytes beyond the written length remain after a successful write. -/
theorem artifacts_force_write_contents (bc : BasicCmd) (sc : ShardedCmd)
    (gsw : SeedType → Except Err (List Nat)) (password rng salt : List Nat)
    (rand : Nat → Nat → GF) (budget : Nat) (fs fsS : FS) (w wS : Wallet)
    (shs : List Wallet)
    (hseedB : bc.seed = none) (hforceB : bc.force = true)
    (hencB : walletEncrypt (keypairGenerate ⟨bc.network, bc.key_type⟩ rng) password
      (.basic (argon2id13_default salt)) rand budget = .ok w) :
    ((basicRun bc gsw password rng salt rand budget fs).res = .ok () ∧
      lookupFile (basicRun bc gsw password rng salt rand budget fs).fs bc.output =
        some (serWallet w ++
          ((lookupFile fs bc.output).getD []).drop (serWallet w).length)) ∧
    (sc.seed = none → sc.force = true →
      walletEncrypt (keypairGenerate ⟨sc.network, sc.key_type⟩ rng) password
        (.sharded sc.key_share_count sc.recovery_threshold (argon2id13_default salt))
        rand budget = .ok wS →
      walletShards wS = .ok shs →
      (shardedRun sc gsw password rng salt rand budget fsS).res = .ok () ∧
      ∀ i, i < shs.length →
        lookupFile (shardedRun sc gsw password rng salt rand budget fsS).fs
          (shardFilename sc.output i) =
        some (serWallet (shs.getD i default) ++
          ((lookupFile fsS (shardFilename sc.output i)).getD []).drop
            (serWallet (shs.getD i default)).length)) := by
  constructor
  · exact basicRun_force_contents_aux bc gsw password rng salt rand budget fs w
      hseedB hforceB hencB
  · intro hseedS hforceS hencS hshS
    have hrun : shardedRun sc gsw password rng salt rand budget fsS =
        writeShards sc.output (get_file_extension sc.output) sc.force
          (shs.map serWallet) 0 fsS := by
      simp [shardedRun, hseedS, seedWordsStep, gen_keypair, hencS, hshS]
    rw [hrun, hforceS]
    obtain ⟨hres, hwr, _⟩ := writeShards_force sc.output (get_file_extension sc.output)
      (shs.map serWallet) 0 fsS
    refine ⟨hres, ?_⟩
    intro i hi
    have hw := hwr i (by simpa using hi)
    rw [(by omega : 0 + i + 1 = i + 1)] at hw
    rw [getD_map_serWallet shs i hi] at hw
    exact hw

/-- The concrete basic wallet of the force-contents witness. -/
def walletB8 : Wallet :=
  (walletEncrypt (keypairGenerate ⟨.mainnet, .ed25519⟩ [1]) []
    (.basic (argon2id13_default [])) (fun _ _ => 0) 64).toOption.getD default

/-- The concrete sharded wallet of the force-contents witness. -/
def walletW8 : Wallet :=
  (walletEncrypt (keypairGenerate ⟨.mainnet, .ed25519⟩ [1]) []
    (.sharded 2 1 (argon2id13_default [])) (fun _ _ => 0) 64).toOption.getD default

/-- Its shard artifacts. -/
def shardsW8 : List Wallet := (walletShards walletW8).toOption.getD []

theorem artifacts_force_write_contents_witness :
    ((basicRun ⟨pathOfString "wallet.key", true, none, .mainnet, .ed25519⟩
        (fun _ => .error .InvalidMnemonic) [] [1] [] (fun _ _ => 0) 64
        [(pathOfString "wallet.key", List.replicate 60 9)]).res = .ok () ∧
      lookupFile (basicRun ⟨pathOfString "wallet.key", true, none, .mainnet, .ed25519⟩
          (fun _ => .error .InvalidMnemonic) [] [1] [] (fun _ _ => 0) 64
          [(pathOfString "wallet.key", List.replicate 60 9)]).fs
        (pathOfString "wallet.key") =
      some (serWallet walletB8 ++
        ((lookupFile [(pathOfString "wallet.key", List.replicate 60 9)]
          (pathOfString "wallet.key")).getD []).drop (serWallet walletB8).length)) ∧
    ((shardedRun ⟨pathOfString "wallet.key", true, 2, 1, none, .mainnet, .ed25519⟩
        (fun _ => .error .InvalidMnemonic) [] [1] [] (fun _ _ => 0) 64
        [(pathOfString "wallet.key.1", List.replicate 40 9)]).res = .ok () ∧
      ∀ i, i < shardsW8.length →
        lookupFile (shardedRun ⟨pathOfString "wallet.key", true, 2, 1, none, .mainnet, .ed25519⟩
            (fun _ => .error .InvalidMnemonic) [] [1] [] (fun _ _ => 0) 64
            [(pathOfString "wallet.key.1", List.replicate 40 9)]).fs
          (shardFilename (pathOfString "wallet.key") i) =
        some (serWallet (shardsW8.getD i default) ++
          ((lookupFile [(pathOfString "wallet.key.1", List.replicate 40 9)]
            (shardFilename (pathOfString "wallet.key") i)).getD []).drop
              (serWallet (shardsW8.getD i default)).length)) :=
  ⟨(artifacts_force_write_contents
      ⟨pathOfString "wallet.key", true, none, .mainnet, .ed25519⟩
      ⟨pathOfString "wallet.key", true, 2, 1, none, .mainnet, .ed25519⟩
      (fun _ => .error .InvalidMnemonic) [] [1] [] (fun _ _ => 0) 64
      [(pathOfString "wallet.key", List.replicate 60 9)]
      [(pathOfString "wallet.key.1", List.replicate 40 9)]
      walletB8 walletW8 shardsW8 rfl rfl (by decide)).1,
    (artifacts_force_write_contents
      ⟨pathOfString "wallet.key", true, none, .mainnet, .ed25519⟩
      ⟨pathOfString "wallet.key", true, 2, 1, none, .mainnet, .ed25519⟩
      (fun _ => .error .InvalidMnemonic) [] [1] [] (fun _ _ => 0) 64
      [(pathOfString "wallet.key", List.replicate 60 9)]
      [(pathOfString "wallet.key.1", List.replicate 40 9)]
      walletB8 walletW8 shardsW8 rfl rfl (by decide)).2
      rfl rfl (by decide) (by decide)⟩

/-! ### Lagrange reconstruction: proof machinery for the splitter -/

/-- The polynomial with the given coefficient list (lowest degree first),
used to reason about `evalPoly`. -/
noncomputable def fOf : List GF → Polynomial GF
  | [] => 0
  | c :: cs => Polynomial.C c + Polynomial.X * fOf cs

theorem eval_fOf (l : List GF) (z : GF) : (fOf l).eval z = evalPoly l z := by
  induction l with
  | nil => simp [fOf, evalPoly]
  | cons c cs ih => simp [fOf, evalPoly, ih]

theorem degree_fOf (l : List GF) : (fOf l).degree < (l.length : WithBot Nat) := by
  induction l with
  | nil =>
    rw [Nat.cast_withBot]
    simp only [fOf, Polynomial.degree_zero, List.length_nil]
    exact WithBot.bot_lt_coe 0
  | cons c cs ih =>
    rw [Nat.cast_withBot] at ih ⊢
    simp only [fOf, List.length_cons]
    apply lt_of_le_of_lt (Polynomial.degree_add_le _ _)
    rw [max_lt_iff]
    constructor
    · apply lt_of_le_of_lt Polynomial.degree_C_le
      rw [← WithBot.coe_zero]
      exact WithBot.coe_lt_coe.mpr (Nat.succ_pos cs.length)
    · rw [Polynomial.degree_mul, Polynomial.degree_X]
      cases hd : (fOf cs).degree with
      | bot =>
        rw [WithBot.add_bot]
        exact WithBot.bot_lt_coe _
      | coe d =>
        rw [hd] at ih
        have hdn : d < cs.length := WithBot.coe_lt_coe.mp ih
        calc (1 : WithBot Nat) + (d : WithBot Nat)
            = ((1 + d : Nat) : WithBot Nat) := by norm_cast
          _ < ((cs.length + 1 : Nat) : WithBot Nat) := by
              rw [Nat.cast_withBot, Nat.cast_withBot]
              exact WithBot.coe_lt_coe.mpr (by omega)

/-- Evaluating at `0` the Lagrange interpolation through the nodes
`(v i, f.eval (v i))`, `i < m`, recovers `f.eval 0` for any polynomial of
degree below `m`; the sum is written in the share-combination form. -/
theorem interpolation_at_zero (m : Nat) (v : Nat → GF) (f : Polynomial GF)
    (hv : Set.InjOn v (Finset.range m)) (hdeg : f.degree < (m : WithBot Nat)) :
    ∑ i ∈ Finset.range m, f.eval (v i) *
      ∏ j ∈ (Finset.range m).erase i, v j * (v j - v i)⁻¹ = f.eval 0 := by
  have heq := Lagrange.eq_interpolate (s := Finset.range m) (v := v) hv
    (by rw [Finset.card_range]; exact hdeg)
  calc ∑ i ∈ Finset.range m, f.eval (v i) *
        ∏ j ∈ (Finset.range m).erase i, v j * (v j - v i)⁻¹
      = (Lagrange.interpolate (Finset.range m) v fun i => f.eval (v i)).eval 0 := ?_
    _ = f.eval 0 := by rw [← heq]
  rw [Lagrange.interpolate_apply, Polynomial.eval_finset_sum]
  apply Finset.sum_congr rfl
  intro i hi
  rw [Polynomial.eval_mul, Polynomial.eval_C]
  congr 1
  rw [Lagrange.basis, Polynomial.eval_prod]
  apply Finset.prod_congr rfl
  intro j hj
  obtain ⟨hji, hjs⟩ := Finset.mem_erase.mp hj
  have hvne : v j ≠ v i := fun hh => hji (hv hjs hi hh)
  have h1 : Polynomial.eval 0 (Lagrange.basisDivisor (v i) (v j)) =
      (v i - v j)⁻¹ * (0 - v j) := by
    simp [Lagrange.basisDivisor]
  rw [h1]
  have h2 : v i - v j = -(v j - v i) := by ring
  rw [h2, inv_neg]
  ring

theorem getD_map_lt {α β : Type _} (f : α → β) (d : α) (dB : β) :
    ∀ (l : List α) (m : Nat), m < l.length → (l.map f).getD m dB = f (l.getD m d)
  | [], m, h => absurd h (by simp)
  | _ :: _, 0, _ => rfl
  | _ :: rest, m + 1, h => getD_map_lt f d dB rest m (by simpa using h)

theorem getD_range_lt (n t : Nat) (h : t < n) : (List.range n).getD t 0 = t := by
  rw [List.getD_eq_getElem _ _ (by simpa using h)]
  exact List.getElem_range t (by simpa using h)

theorem getD_mem_of_lt {α : Type _} (l : List α) (d : α) (m : Nat) (h : m < l.length) :
    l.getD m d ∈ l := by
  rw [List.getD_eq_getElem l d h]
  exact List.getElem_mem _

theorem headD_eq_getD {α : Type _} [Inhabited α] (l : List α) :
    l.headD default = l.getD 0 default := by
  cases l <;> rfl

theorem sharesOf_getD (secret : List Nat) (n k : Nat) (rand : Nat → Nat → GF)
    (t : Nat) (h : t < n) :
    ((List.range n).map (shareOf secret k rand)).getD t default = shareOf secret k rand t := by
  rw [getD_map_lt (shareOf secret k rand) 0 default (List.range n) t (by simpa using h),
    getD_range_lt n t h]

theorem shareOf_ys_getD (secret : List Nat) (k : Nat) (rand : Nat → Nat → GF)
    (i p : Nat) (hp : p < secret.length) :
    (shareOf secret k rand i).ys.getD p 0 =
      evalPoly (coeffsOf secret k rand p) ((i + 1 : Nat) : GF) := by
  show ((List.range secret.length).map _).getD p 0 = _
  rw [getD_map_lt _ 0 0 (List.range secret.length) p (by simpa using hp),
    getD_range_lt _ _ hp]

theorem coeffsOf_length (secret : List Nat) (k : Nat) (rand : Nat → Nat → GF) (p : Nat)
    (hk : 1 ≤ k) : (coeffsOf secret k rand p).length = k := by
  simp only [coeffsOf, List.length_cons, List.length_map, List.length_range]
  omega

theorem evalPoly_cons_zero (c : GF) (cs : List GF) : evalPoly (c :: cs) 0 = c := by
  simp [evalPoly]

/-- C1: for `1 ≤ k ≤ n ≤ 255`, splitting a secret byte string into `n`
shares and combining any `k` distinct of the shares (any duplicate-free
selection of `k` share positions) yields exactly the original secret,
byte for byte, for every choice of random polynomial coefficients. -/
theorem split_combine_roundtrip (secret : List Nat) (n k : Nat)
    (rand : Nat → Nat → GF) (shares : List Share) (sel : List Nat)
    (hbytes : ∀ b ∈ secret, b < 256)
    (hsplit : split secret n k rand = .ok shares)
    (hnd : sel.Nodup) (hsel : ∀ t ∈ sel, t < n) (hlen : sel.length = k) :
    combine (sel.map fun t => shares.getD t default) k = .ok secret := by
  unfold split at hsplit
  split_ifs at hsplit with hcond
  push_neg at hcond
  obtain ⟨hkn, hk1', hn255⟩ := hcond
  have hk1 : 1 ≤ k := by omega
  have hshares : (List.range n).map (shareOf secret k rand) = shares := Except.ok.inj hsplit
  subst hshares
  set L := sel.map fun t => ((List.range n).map (shareOf secret k rand)).getD t default with hL
  have hselL : ∀ m, m < sel.length → sel.getD m 0 < n := fun m hm =>
    hsel _ (getD_mem_of_lt sel 0 m hm)
  have hLlen : L.length = k := by rw [hL]; simpa using hlen
  have hLget : ∀ m, m < k → L.getD m default = shareOf secret k rand (sel.getD m 0) := by
    intro m hm
    rw [hL, getD_map_lt _ 0 default sel m (by omega)]
    exact sharesOf_getD secret n k rand _ (hselL m (by omega))
  have hinj : Set.InjOn (fun m => ((sel.getD m 0 + 1 : Nat) : GF)) (Finset.range k) := by
    intro a ha b hb hab
    have hak : a < k := by simpa using ha
    have hbk : b < k := by simpa using hb
    have ha' : sel.getD a 0 < n := hselL a (by omega)
    have hb' : sel.getD b 0 < n := hselL b (by omega)
    have hab' : ((sel.getD a 0 + 1 : Nat) : GF) = ((sel.getD b 0 + 1 : Nat) : GF) := hab
    have hval := congrArg ZMod.val hab'
    rw [ZMod.val_cast_of_lt (by omega), ZMod.val_cast_of_lt (by omega)] at hval
    have hg : sel.getD a 0 = sel.getD b 0 := by omega
    have hga := List.getD_eq_getElem sel 0 (show a < sel.length by omega)
    have hgb := List.getD_eq_getElem sel 0 (show b < sel.length by omega)
    rw [hga, hgb] at hg
    exact (List.Nodup.getElem_inj_iff hnd).mp hg
  have hcomb : ∀ p, p < secret.length →
      combineAt L p = ((secret.getD p 0 : Nat) : GF) := by
    intro p hp
    have hdeg : (fOf (coeffsOf secret k rand p)).degree < (k : WithBot Nat) := by
      have hd := degree_fOf (coeffsOf secret k rand p)
      rwa [coeffsOf_length secret k rand p hk1] at hd
    have hmain := interpolation_at_zero k (fun m => ((sel.getD m 0 + 1 : Nat) : GF))
      (fOf (coeffsOf secret k rand p)) hinj hdeg
    unfold combineAt
    rw [hLlen]
    have hsum : ∑ i ∈ Finset.range k, ((L.getD i default).ys.getD p 0) *
        ∏ j ∈ (Finset.range k).erase i,
          xOf (L.getD j default) * (xOf (L.getD j default) - xOf (L.getD i default))⁻¹ =
        ∑ i ∈ Finset.range k,
          (fOf (coeffsOf secret k rand p)).eval ((sel.getD i 0 + 1 : Nat) : GF) *
          ∏ j ∈ (Finset.range k).erase i,
            ((sel.getD j 0 + 1 : Nat) : GF) *
              (((sel.getD j 0 + 1 : Nat) : GF) - ((sel.getD i 0 + 1 : Nat) : GF))⁻¹ := by
      apply Finset.sum_congr rfl
      intro i hi
      have hik : i < k := by simpa using hi
      rw [hLget i hik, shareOf_ys_getD secret k rand _ p hp, ← eval_fOf]
      congr 1
      apply Finset.prod_congr rfl
      intro j hj
      have hjk : j < k := by
        have h2 := (Finset.mem_erase.mp hj).2
        simpa using h2
      rw [hLget j hjk]
      rfl
    rw [hsum, hmain, eval_fOf]
    unfold coeffsOf
    exact evalPoly_cons_zero _ _
  have hfin : (List.range secret.length).map (fun p => (combineAt L p).val) = secret := by
    apply List.ext_getElem
    · simp
    · intro i h1 h2
      simp only [List.getElem_map, List.getElem_range]
      rw [hcomb i h2]
      rw [ZMod.val_cast_of_lt (by
        have hb := hbytes (secret.getD i 0) (getD_mem_of_lt secret 0 i h2)
        omega)]
      exact List.getD_eq_getElem secret 0 h2
  unfold combine
  split_ifs with hg1 hg2
  · rw [hLlen] at hg1
    exact absurd hg1 (lt_irrefl k)
  · have hylen : (L.headD default).ys.length = secret.length := by
      rw [headD_eq_getD, hLget 0 (by omega)]
      simp [shareOf]
    rw [hylen, hfin]
  · exfalso
    apply hg2
    constructor
    · have hidx : L.map Share.idx = sel.map (fun t => t + 1) := by
        rw [hL, List.map_map]
        apply List.map_congr_left
        intro t ht
        show (((List.range n).map (shareOf secret k rand)).getD t default).idx = t + 1
        rw [sharesOf_getD secret n k rand t (hsel t ht)]
        rfl
      rw [hidx]
      exact hnd.map (fun a b hab => by omega)
    · intro s hs
      rw [hL] at hs
      obtain ⟨t, ht, rfl⟩ := List.mem_map.mp hs
      rw [sharesOf_getD secret n k rand t (hsel t ht)]
      rfl

theorem split_combine_roundtrip_witness :
    combine (([0, 1] : List Nat).map fun t =>
      ((List.range 2).map (shareOf [7] 2 fun _ _ => 0)).getD t default) 2 = .ok [7] :=
  split_combine_roundtrip [7] 2 2 (fun _ _ => 0)
    ((List.range 2).map (shareOf [7] 2 fun _ _ => 0)) [0, 1]
    (by decide) (by decide) (by decide) (by decide) (by decide)

end HeliumWallet
